import Mathlib

/-!
Verification of the line-record parser `process_lines_with_atoms`
(src/cpp/src/traj_file/process_lines.cpp) against its specification.

The C++ function is embedded shallowly:

* an `std::istringstream` is modelled as the list of characters not yet
  consumed;
* `operator>>` into `std::string` is `extractString` (skip whitespace,
  take the maximal run of non-whitespace characters, fail at end of
  input);
* `operator>>` into `float` is `extractFloat`: skip whitespace, then run
  the character-class scanner of `std::num_get` (stage 2 of the standard
  extraction: an optional sign, decimal digits, at most one decimal
  point, at most one exponent marker followed by an optional sign and
  digits; hexadecimal floats are excluded from stage 2 by LWG 2381, and
  the letters of "inf"/"nan" are not in the accepted character set) and
  convert the accumulated characters as `strtof` does (stage 3), failing
  when the accumulated field is empty, is not entirely a valid decimal
  literal, or lies outside the range of finite IEEE binary32 values:
  on such a field `strtof` returns an infinity with `ERANGE` and the
  extraction sets failbit (LWG 23), so the program throws; the overflow
  threshold under the default round-to-nearest-even is
  `2^128 - 2^103` (`fitsF32`).  An `ERANGE` underflow, by contrast,
  stores the rounded (subnormal or zero) value without failbit and is
  therefore a success;
* within the finite range the numeric value is represented exactly as a
  rational number: the claims under verification concern which text
  parses and how tokens map to output slots, so the rounding of an
  in-range literal is abstracted (both sides of every comparison go
  through the same parse, and rounding the same literal twice gives the
  same float); whether a field converts at all is modelled exactly;
* `std::vector<std::string> atoms(n_atoms)` with `n_atoms < 0` converts
  the count to an enormous `size_type` and throws `std::length_error`;
  this outcome is `PLResult.lengthError`;
* `input[i]` with `i` out of range is undefined behaviour on
  `std::vector`; reaching that access is recorded as the distinguished
  outcome `PLResult.ub` (it is not a clean error of the C++ program);
* `throw std::runtime_error("Could not parse line")` is
  `PLResult.parseError`; C++ stack unwinding discards the partially
  filled vectors, so no partial output is modelled either.

The multiplication `n_atoms * 3` is assumed not to overflow `int`
(callers with more than 715827882 atoms are outside the modelled range).
-/

/-- Whitespace recognised by `std::isspace` in the default "C" locale,
used both by the skipws behaviour of `operator>>` and by the
specification notion of whitespace-separated tokens. -/
def isSpace (c : Char) : Bool :=
  c = ' ' || c = '\t' || c = '\n' || c = '\x0b' || c = '\x0c' || c = '\r'

/-- Characters that belong to a whitespace-separated token. -/
def isTokChar (c : Char) : Bool := !isSpace c

/-- Skip leading whitespace, as every formatted `>>` extraction does. -/
def dropWS (s : List Char) : List Char := s.dropWhile isSpace

/-- Model of `iss >> atom` for `std::string`: skip whitespace, fail when
the stream is exhausted, otherwise read the maximal run of
non-whitespace characters. -/
def extractString (s : List Char) : Option (String × List Char) :=
  match dropWS s with
  | [] => none
  | c :: rest =>
      some (String.mk ((c :: rest).takeWhile isTokChar),
            (c :: rest).dropWhile isTokChar)

/-- States of the character scanner of `std::num_get` stage 2,
restricted to decimal floating-point fields. -/
inductive FState where
  | start
  | afterSign
  | intPart
  | frac (seen : Bool)
  | afterE
  | afterESign
  | expDig
deriving DecidableEq

/-- Numeric accumulator of the float scanner: sign, mantissa digits read
so far, number of digits after the decimal point, exponent sign and
exponent digits. -/
structure FAcc where
  neg : Bool
  mant : Nat
  fracLen : Nat
  eneg : Bool
  exp : Nat
deriving DecidableEq

/-- Initial accumulator. -/
def facc0 : FAcc := ⟨false, 0, 0, false, 0⟩

/-- Numeric value of a digit character. -/
def digitVal (c : Char) : Nat := c.toNat - 48

/-- States in which stopping yields a successfully converted field:
at least one mantissa digit has been read, and an exponent marker, if
present, is followed by at least one digit (otherwise `strtof` does not
convert the entire accumulated field and the extraction sets failbit). -/
def faccept (q : FState) : Bool :=
  match q with
  | .intPart => true
  | .frac seen => seen
  | .expDig => true
  | _ => false

/-- Exact rational value of a completed decimal field: the mantissa
digits scaled by the decimal point position, times ten to the signed
exponent (written with `mkRat` so that the value is a ratio of the
integer mantissa and powers of ten). -/
def fvalue (a : FAcc) : ℚ :=
  let sgn : Int := if a.neg then -(a.mant : Int) else (a.mant : Int)
  if a.eneg then mkRat sgn (10 ^ (a.fracLen + a.exp))
  else mkRat (sgn * (10 : Int) ^ a.exp) (10 ^ a.fracLen)

/-- Smallest magnitude that rounds to infinity in IEEE binary32 under
the default round-to-nearest-even mode: halfway between the largest
finite value `(2^24 - 1) * 2^104 = 2^128 - 2^104` and `2^128`, ties
going to the even `2^128`.  `strtof` reports `ERANGE` with an infinite
result exactly when the magnitude of the exact decimal value is at
least this bound. -/
def f32OverflowBound : Nat := 2 ^ 128 - 2 ^ 103

/-- Stage 3 range check of the extraction: the exact value `v` (stored
as `num / den` in lowest terms with `den > 0`) converts to a finite
`float`, hence without failbit, exactly when `|v| < f32OverflowBound`,
that is, `|num| < f32OverflowBound * den`. -/
def fitsF32 (v : ℚ) : Bool := decide (v.num.natAbs < f32OverflowBound * v.den)

/-- One step of the decimal-field scanner: which characters are
accumulated in each state, mirroring the stage 2 character classes of
`std::num_get` for a decimal floating-point field.  A character outside
the accepted class of the current state ends the field (`none`). -/
def fstep (q : FState) (a : FAcc) (c : Char) : Option (FState × FAcc) :=
  match q with
  | .start =>
      if c = '+' then some (.afterSign, a)
      else if c = '-' then some (.afterSign, { a with neg := true })
      else if c.isDigit then some (.intPart, { a with mant := digitVal c })
      else if c = '.' then some (.frac false, a)
      else none
  | .afterSign =>
      if c.isDigit then some (.intPart, { a with mant := digitVal c })
      else if c = '.' then some (.frac false, a)
      else none
  | .intPart =>
      if c.isDigit then some (.intPart, { a with mant := 10 * a.mant + digitVal c })
      else if c = '.' then some (.frac true, a)
      else if c = 'e' || c = 'E' then some (.afterE, a)
      else none
  | .frac seen =>
      if c.isDigit then
        some (.frac true, { a with mant := 10 * a.mant + digitVal c, fracLen := a.fracLen + 1 })
      else if (c = 'e' || c = 'E') && seen then some (.afterE, a)
      else none
  | .afterE =>
      if c.isDigit then some (.expDig, { a with exp := digitVal c })
      else if c = '+' then some (.afterESign, a)
      else if c = '-' then some (.afterESign, { a with eneg := true })
      else none
  | .afterESign =>
      if c.isDigit then some (.expDig, { a with exp := digitVal c })
      else none
  | .expDig =>
      if c.isDigit then some (.expDig, { a with exp := 10 * a.exp + digitVal c })
      else none

/-- Run the scanner over the stream.  The field ends at the first
non-accumulated character or at end of input; if the field is a
complete decimal literal (an accepting state) whose value converts to a
finite `float` (the stage 3 range check), the converted value is
returned together with the unconsumed characters; otherwise the
extraction fails (failbit), also when the value overflows binary32 and
`strtof` reports `ERANGE`. -/
def frun : FState → FAcc → List Char → Option (ℚ × List Char)
  | q, a, [] =>
      if faccept q && fitsF32 (fvalue a) then some (fvalue a, []) else none
  | q, a, c :: rest =>
      match fstep q a c with
      | some (q2, a2) => frun q2 a2 rest
      | none =>
          if faccept q && fitsF32 (fvalue a) then some (fvalue a, c :: rest)
          else none

/-- Model of `iss >> x` for `float`: skip whitespace, then scan and
convert a decimal field. -/
def extractFloat (s : List Char) : Option (ℚ × List Char) :=
  frun .start facc0 (dropWS s)

/-- Model of one loop body of `process_lines_with_atoms`:
`std::istringstream iss(input[i]); iss >> atom >> x >> y >> z`.
Once a stream extraction fails, failbit makes every later extraction a
no-op and the chained expression converts to `false`, so failure
propagates. -/
def parseLine (line : String) : Option (String × ℚ × ℚ × ℚ) :=
  match extractString line.data with
  | none => none
  | some (atom, s1) =>
      match extractFloat s1 with
      | none => none
      | some (x, s2) =>
          match extractFloat s2 with
          | none => none
          | some (y, s3) =>
              match extractFloat s3 with
              | none => none
              | some (z, _) => some (atom, x, y, z)

/-- Outcome of a call to `process_lines_with_atoms`.
`ok` carries the `atoms` and `xyz` vectors; `parseError` is the thrown
`std::runtime_error("Could not parse line")`; `lengthError` is the
`std::length_error` thrown by the vector constructors when `n_atoms` is
negative; `ub` records that execution reached the undefined behaviour of
an out-of-range `input[i]`. -/
inductive PLResult where
  | ok (atoms : List String) (xyz : List ℚ)
  | parseError
  | lengthError
  | ub
deriving DecidableEq

/-- The parsing loop of `process_lines_with_atoms`, processing record
indices `i, i+1, ..., i+k-1`.  Writing into the pre-allocated vectors at
indices `i`, `3*i`, `3*i+1`, `3*i+2` in increasing order is modelled by
building the result lists in the same order. -/
def processFrom (input : List String) : Nat → Nat → PLResult
  | _, 0 => .ok [] []
  | i, k + 1 =>
      match input[i]? with
      | none => .ub
      | some line =>
          match parseLine line with
          | none => .parseError
          | some (a, x, y, z) =>
              match processFrom input (i + 1) k with
              | .ok atoms xyz => .ok (a :: atoms) (x :: y :: z :: xyz)
              | r => r

/-- Shallow embedding of `process_lines_with_atoms` from
src/cpp/src/traj_file/process_lines.cpp: construct the output vectors
(throwing `std::length_error` for a negative `n_atoms`, since the count
is converted to a huge unsigned `size_type`), then run the parsing loop
over the first `n_atoms` lines. -/
def process_lines_with_atoms (input : List String) (n_atoms : Int) : PLResult :=
  if n_atoms < 0 then .lengthError
  else processFrom input 0 n_atoms.toNat

/-- Fuel-indexed whitespace tokenizer (the fuel makes the recursion
structural; any fuel at least the length of the input gives the same
result).  This is the specification notion of splitting a line into
maximal runs of non-whitespace characters. -/
def tokenizeGo : Nat → List Char → List String
  | 0, _ => []
  | _ + 1, [] => []
  | fuel + 1, c :: s =>
      if isSpace c then tokenizeGo fuel s
      else
        String.mk (c :: s.takeWhile isTokChar) ::
          tokenizeGo fuel (s.dropWhile isTokChar)

/-- The whitespace-separated tokens of a character sequence. -/
def tokenize (s : List Char) : List String := tokenizeGo s.length s

/-- The whitespace-separated tokens of a line, as the specification
describes them. -/
def lineTokens (line : String) : List String := tokenize line.data

/-- Whole-token reading of a decimal floating-point literal: the token
is interpreted as a float exactly when the scanner consumes the entire
token and accepts.  This is the specification notion of a token
"parsed as a floating-point number using standard decimal notation". -/
def floatLitVal (t : String) : Option ℚ :=
  match frun .start facc0 t.data with
  | some (v, rest) => if rest.isEmpty then some v else none
  | none => none

/-- Token-based reading of one record as the specification words it:
the first token is the label, taken verbatim, and the second, third and
fourth tokens are each parsed, as whole tokens, as decimal
floating-point literals.  Used to state the claims that compare the
code with the specification. -/
def specRecord (line : String) : Option (String × ℚ × ℚ × ℚ) :=
  match lineTokens line with
  | t0 :: t1 :: t2 :: t3 :: _ =>
      match floatLitVal t1, floatLitVal t2, floatLitVal t3 with
      | some x, some y, some z => some (t0, x, y, z)
      | _, _, _ => none
  | _ => none

/-- A stream position at a token boundary: either exhausted or looking
at whitespace. -/
def wsHeaded (r : List Char) : Prop :=
  ∀ c, r.head? = some c → isSpace c = true

/-! ### Scanner lemmas -/

/-- Whitespace is never accumulated by the float scanner, in any state. -/
theorem fstep_isSpace (q : FState) (a : FAcc) (c : Char) (hc : isSpace c = true) :
    fstep q a c = none := by
  have hcases : c = ' ' ∨ c = '\t' ∨ c = '\n' ∨ c = '\x0b' ∨ c = '\x0c' ∨ c = '\r' := by
    simp only [isSpace, Bool.or_eq_true, decide_eq_true_eq] at hc
    tauto
  rcases hcases with h | h | h | h | h | h <;> subst h <;> cases q <;> rfl

/-- If the scanner consumes a complete field `t` and accepts, then on
`t` followed by whitespace-headed residue `r` it consumes exactly `t`
and leaves `r` in the stream. -/
theorem frun_append (r : List Char) (hr : wsHeaded r) :
    ∀ (t : List Char) (q : FState) (a : FAcc) (v : ℚ),
      frun q a t = some (v, []) → frun q a (t ++ r) = some (v, r) := by
  intro t
  induction t with
  | nil =>
      intro q a v h
      simp only [frun] at h
      by_cases hq : (faccept q && fitsF32 (fvalue a)) = true
      · rw [if_pos hq] at h
        have hv : fvalue a = v := congrArg Prod.fst (Option.some.inj h)
        subst hv
        cases r with
        | nil => simp [frun, hq]
        | cons c r2 =>
            have hc : isSpace c = true := hr c rfl
            simp [frun, fstep_isSpace _ _ _ hc, hq]
      · rw [if_neg hq] at h
        exact absurd h (by simp)
  | cons c t ih =>
      intro q a v h
      simp only [frun] at h
      cases hs : fstep q a c with
      | none =>
          rw [hs] at h
          by_cases hq : (faccept q && fitsF32 (fvalue a)) = true
          · rw [if_pos hq] at h
            have : c :: t = [] := congrArg Prod.snd (Option.some.inj h)
            cases this
          · rw [if_neg hq] at h
            exact absurd h (by simp)
      | some qa =>
          obtain ⟨q2, a2⟩ := qa
          rw [hs] at h
          have h2 := ih q2 a2 v h
          simpa [frun, hs] using h2

/-- The head of a `dropWhile` residue falsifies the predicate. -/
theorem dropWhile_eq_cons_head_false {α : Type} (p : α → Bool) (l : List α)
    (c : α) (rest : List α) (h : l.dropWhile p = c :: rest) : p c = false := by
  have hne : l.dropWhile p ≠ [] := by simp [h]
  have := List.head_dropWhile_not p l hne
  rwa [show (l.dropWhile p).head hne = c by simp [h]] at this

/-! ### Tokenizer lemmas -/

/-- The fuel argument of `tokenizeGo` is irrelevant once it is at least
the length of the input. -/
theorem tokenizeGo_congr :
    ∀ (fuel fuel2 : Nat) (s : List Char), s.length ≤ fuel → s.length ≤ fuel2 →
      tokenizeGo fuel s = tokenizeGo fuel2 s := by
  intro fuel
  induction fuel with
  | zero =>
      intro fuel2 s hs _
      have : s = [] := List.length_eq_zero.mp (Nat.le_zero.mp hs)
      subst this
      cases fuel2 <;> rfl
  | succ fuel ih =>
      intro fuel2 s hs hs2
      cases s with
      | nil => cases fuel2 <;> rfl
      | cons c s =>
          cases fuel2 with
          | zero => exact absurd hs2 (by simp)
          | succ fuel2 =>
              simp only [tokenizeGo]
              by_cases hc : isSpace c = true
              · rw [if_pos hc, if_pos hc]
                exact ih fuel2 s (Nat.le_of_succ_le_succ (by simpa using hs))
                  (Nat.le_of_succ_le_succ (by simpa using hs2))
              · rw [if_neg hc, if_neg hc]
                have hlen : (s.dropWhile isTokChar).length ≤ s.length :=
                  (List.dropWhile_sublist isTokChar).length_le
                have h1 : (s.dropWhile isTokChar).length ≤ fuel :=
                  Nat.le_trans hlen (Nat.le_of_succ_le_succ (by simpa using hs))
                have h2 : (s.dropWhile isTokChar).length ≤ fuel2 :=
                  Nat.le_trans hlen (Nat.le_of_succ_le_succ (by simpa using hs2))
                rw [ih fuel2 _ h1 h2]

/-- Tokenizing skips a leading whitespace character. -/
theorem tokenize_cons_space (c : Char) (s : List Char) (hc : isSpace c = true) :
    tokenize (c :: s) = tokenize s := by
  simp only [tokenize, List.length_cons, tokenizeGo, if_pos hc]

/-- Tokenizing at a non-whitespace character produces the maximal token
starting there followed by the tokens of the rest. -/
theorem tokenize_cons_tok (c : Char) (s : List Char) (hc : isSpace c = false) :
    tokenize (c :: s) =
      String.mk ((c :: s).takeWhile isTokChar) ::
        tokenize ((c :: s).dropWhile isTokChar) := by
  have hct : isTokChar c = true := by simp [isTokChar, hc]
  have htw : (c :: s).takeWhile isTokChar = c :: s.takeWhile isTokChar :=
    List.takeWhile_cons_of_pos hct
  have hdw : (c :: s).dropWhile isTokChar = s.dropWhile isTokChar :=
    List.dropWhile_cons_of_pos hct
  have hlen : (s.dropWhile isTokChar).length ≤ s.length :=
    (List.dropWhile_sublist isTokChar).length_le
  have hns : ¬ isSpace c = true := by rw [hc]; exact Bool.false_ne_true
  simp only [tokenize, List.length_cons, tokenizeGo, if_neg hns, htw, hdw]
  rw [tokenizeGo_congr s.length (s.dropWhile isTokChar).length (s.dropWhile isTokChar)
    hlen (Nat.le_refl _)]

/-- Leading whitespace does not change the token list. -/
theorem tokenize_dropWS (s : List Char) : tokenize (dropWS s) = tokenize s := by
  induction s with
  | nil => rfl
  | cons c s ih =>
      by_cases hc : isSpace c = true
      · rw [show dropWS (c :: s) = dropWS s from List.dropWhile_cons_of_pos hc,
            tokenize_cons_space c s hc]
        exact ih
      · rw [show dropWS (c :: s) = c :: s from
          List.dropWhile_cons_of_neg (by simpa using hc)]

/-! ### Extraction versus tokens -/

/-- A successful string extraction reads exactly the first token and
leaves the stream at a token boundary. -/
theorem extractString_tokens (s : List Char) (t : String) (ts : List String)
    (h : tokenize s = t :: ts) :
    ∃ r, extractString s = some (t, r) ∧ tokenize r = ts ∧ wsHeaded r := by
  rw [← tokenize_dropWS] at h
  cases hd : dropWS s with
  | nil =>
      rw [hd] at h
      exact absurd h (by simp [tokenize, tokenizeGo])
  | cons c rest =>
      have hc : isSpace c = false := dropWhile_eq_cons_head_false isSpace s c rest hd
      rw [hd, tokenize_cons_tok c rest hc] at h
      have ht : t = String.mk ((c :: rest).takeWhile isTokChar) := (List.cons.inj h).1.symm
      have hts : tokenize ((c :: rest).dropWhile isTokChar) = ts := (List.cons.inj h).2
      refine ⟨(c :: rest).dropWhile isTokChar, ?_, hts, ?_⟩
      · simp [extractString, hd, ht]
      · intro d hdh
        cases hr : (c :: rest).dropWhile isTokChar with
        | nil => rw [hr] at hdh; cases hdh
        | cons d2 r2 =>
            rw [hr] at hdh
            have : d2 = d := by
              have := Option.some.inj hdh
              simpa using this
            subst this
            have := dropWhile_eq_cons_head_false isTokChar (c :: rest) d2 r2 hr
            simpa [isTokChar] using this

/-- A token that reads, as a whole token, as a decimal literal is
consumed exactly by the stream float extraction, which leaves the
stream at the following token boundary. -/
theorem extractFloat_tokens (s : List Char) (t : String) (ts : List String) (v : ℚ)
    (h : tokenize s = t :: ts) (hv : floatLitVal t = some v) :
    ∃ r, extractFloat s = some (v, r) ∧ tokenize r = ts ∧ wsHeaded r := by
  rw [← tokenize_dropWS] at h
  cases hd : dropWS s with
  | nil =>
      rw [hd] at h
      exact absurd h (by simp [tokenize, tokenizeGo])
  | cons c rest =>
      have hc : isSpace c = false := dropWhile_eq_cons_head_false isSpace s c rest hd
      rw [hd, tokenize_cons_tok c rest hc] at h
      have ht : t = String.mk ((c :: rest).takeWhile isTokChar) := (List.cons.inj h).1.symm
      have hts : tokenize ((c :: rest).dropWhile isTokChar) = ts := (List.cons.inj h).2
      have hws : wsHeaded ((c :: rest).dropWhile isTokChar) := by
        intro d hdh
        cases hr : (c :: rest).dropWhile isTokChar with
        | nil => rw [hr] at hdh; cases hdh
        | cons d2 r2 =>
            rw [hr] at hdh
            have : d2 = d := by
              have := Option.some.inj hdh
              simpa using this
            subst this
            have := dropWhile_eq_cons_head_false isTokChar (c :: rest) d2 r2 hr
            simpa [isTokChar] using this
      have hdata : t.data = (c :: rest).takeWhile isTokChar := by rw [ht]
      have hfull : frun .start facc0 t.data = some (v, []) := by
        revert hv
        unfold floatLitVal
        cases hfr : frun .start facc0 t.data with
        | none => intro hv; cases hv
        | some p =>
            obtain ⟨v2, rest2⟩ := p
            cases rest2 with
            | nil =>
                intro hv
                simp only [List.isEmpty_nil, if_pos rfl] at hv
                rw [Option.some.inj hv]
            | cons d r2 => intro hv; simp at hv
      have happ := frun_append ((c :: rest).dropWhile isTokChar) hws t.data .start facc0 v hfull
      rw [hdata] at happ
      rw [List.takeWhile_append_dropWhile] at happ
      exact ⟨(c :: rest).dropWhile isTokChar, by simpa [extractFloat, hd] using happ, hts, hws⟩

/-- The central refinement: when a line has at least four
whitespace-separated tokens and tokens two to four each read, as whole
tokens, as decimal literals, the stream parse succeeds and returns the
first token verbatim together with the three token values.  Any tokens
beyond the fourth are ignored. -/
theorem parseLine_of_tokens (line : String) (t0 t1 t2 t3 : String) (ts : List String)
    (x y z : ℚ)
    (h : lineTokens line = t0 :: t1 :: t2 :: t3 :: ts)
    (h1 : floatLitVal t1 = some x)
    (h2 : floatLitVal t2 = some y)
    (h3 : floatLitVal t3 = some z) :
    parseLine line = some (t0, x, y, z) := by
  obtain ⟨r1, e1, hts1, -⟩ := extractString_tokens line.data t0 (t1 :: t2 :: t3 :: ts) h
  obtain ⟨r2, e2, hts2, -⟩ := extractFloat_tokens r1 t1 (t2 :: t3 :: ts) x hts1 h1
  obtain ⟨r3, e3, hts3, -⟩ := extractFloat_tokens r2 t2 (t3 :: ts) y hts2 h2
  obtain ⟨r4, e4, -, -⟩ := extractFloat_tokens r3 t3 ts z hts3 h3
  simp [parseLine, e1, e2, e3, e4]

/-- The token-based record reading of the specification refines the
stream parse: every record it accepts is returned unchanged by
`parseLine`. -/
theorem parseLine_of_specRecord (line : String) (rec : String × ℚ × ℚ × ℚ)
    (h : specRecord line = some rec) :
    parseLine line = some rec := by
  unfold specRecord at h
  split at h
  · rename_i t0 t1 t2 t3 ts htok
    split at h
    · rename_i x y z h1 h2 h3
      simp only [Option.some.injEq] at h
      subst h
      exact parseLine_of_tokens line t0 t1 t2 t3 ts x y z htok h1 h2 h3
    · exact Option.noConfusion h
  · exact Option.noConfusion h

/-! ### Loop lemmas -/

/-- Unfolding equation for one iteration of the parsing loop. -/
theorem processFrom_succ (input : List String) (i k : Nat) :
    processFrom input i (k + 1) =
      match input[i]? with
      | none => .ub
      | some line =>
          match parseLine line with
          | none => .parseError
          | some (a, x, y, z) =>
              match processFrom input (i + 1) k with
              | .ok atoms xyz => .ok (a :: atoms) (x :: y :: z :: xyz)
              | r => r := rfl

/-- In-range indexing agrees with `getD`. -/
theorem getElem?_eq_some_getD {α : Type} (l : List α) (i : Nat) (d : α)
    (h : i < l.length) : l[i]? = some (l.getD i d) := by
  rw [List.getD_eq_getElem?_getD, List.getElem?_eq_getElem h]
  rfl

/-- A successful run over `k` records returns `k` labels and `3*k`
coordinates. -/
theorem processFrom_ok_length (input : List String) :
    ∀ (k i : Nat) (atoms : List String) (xyz : List ℚ),
      processFrom input i k = .ok atoms xyz →
      atoms.length = k ∧ xyz.length = 3 * k := by
  intro k
  induction k with
  | zero =>
      intro i atoms xyz h
      obtain ⟨h1, h2⟩ := PLResult.ok.inj h
      constructor
      · rw [← h1]; rfl
      · rw [← h2]; rfl
  | succ k ih =>
      intro i atoms xyz h
      rw [processFrom_succ] at h
      cases hg : input[i]? with
      | none => rw [hg] at h; exact PLResult.noConfusion h
      | some line =>
          simp only [hg] at h
          cases hp : parseLine line with
          | none => rw [hp] at h; exact PLResult.noConfusion h
          | some r =>
              obtain ⟨a, x, y, z⟩ := r
              simp only [hp] at h
              cases hrec : processFrom input (i + 1) k with
              | ok atoms2 xyz2 =>
                  simp only [hrec] at h
                  obtain ⟨h1, h2⟩ := PLResult.ok.inj h
                  obtain ⟨l1, l2⟩ := ih (i + 1) atoms2 xyz2 hrec
                  constructor
                  · rw [← h1, List.length_cons, l1]
                  · rw [← h2]
                    simp only [List.length_cons, l2]
                    omega
              | parseError => rw [hrec] at h; exact PLResult.noConfusion h
              | lengthError => rw [hrec] at h; exact PLResult.noConfusion h
              | ub => rw [hrec] at h; exact PLResult.noConfusion h

/-- Pointwise description of a successful run: when every addressed line
stream-parses, the loop succeeds and slot `j` of the outputs comes from
line `i + j`, labels at index `j`, coordinates at indices `3*j`,
`3*j + 1`, `3*j + 2`. -/
theorem processFrom_ok_pointwise (input : List String) :
    ∀ (k i : Nat), i + k ≤ input.length →
      (∀ j, j < k → parseLine (input.getD (i + j) "") ≠ none) →
      ∃ atoms xyz, processFrom input i k = .ok atoms xyz ∧
        ∀ j, j < k → ∃ r, parseLine (input.getD (i + j) "") = some r ∧
          atoms[j]? = some r.1 ∧
          xyz[3 * j]? = some r.2.1 ∧
          xyz[3 * j + 1]? = some r.2.2.1 ∧
          xyz[3 * j + 2]? = some r.2.2.2 := by
  intro k
  induction k with
  | zero =>
      intro i _ _
      exact ⟨[], [], rfl, fun j hj => absurd hj (Nat.not_lt_zero j)⟩
  | succ k ih =>
      intro i hlen hp
      have hi : i < input.length := by omega
      have hg : input[i]? = some (input.getD i "") := getElem?_eq_some_getD input i "" hi
      have hp0 : parseLine (input.getD i "") ≠ none := hp 0 (Nat.succ_pos k)
      obtain ⟨r0, hr0⟩ : ∃ r, parseLine (input.getD i "") = some r := by
        cases hpl : parseLine (input.getD i "") with
        | none => exact absurd hpl hp0
        | some r => exact ⟨r, rfl⟩
      obtain ⟨atoms2, xyz2, hrec, hpt⟩ := ih (i + 1) (by omega) (by
        intro j hj
        have hh := hp (j + 1) (by omega)
        have harith : i + (j + 1) = i + 1 + j := by omega
        rwa [harith] at hh)
      obtain ⟨a, x, y, z⟩ := r0
      refine ⟨a :: atoms2, x :: y :: z :: xyz2, ?_, ?_⟩
      · rw [processFrom_succ]
        simp only [hg, hr0, hrec]
      · intro j hj
        cases j with
        | zero =>
            refine ⟨(a, x, y, z), hr0, ?_, ?_, ?_, ?_⟩ <;> simp
        | succ j =>
            have hj2 : j < k := by omega
            obtain ⟨r, hr, e1, e2, e3, e4⟩ := hpt j hj2
            have harith : i + (j + 1) = i + 1 + j := by omega
            refine ⟨r, by rwa [harith], ?_, ?_, ?_, ?_⟩
            · simpa using e1
            · have hidx : 3 * (j + 1) = 3 * j + 1 + 1 + 1 := by ring
              rw [hidx, List.getElem?_cons_succ, List.getElem?_cons_succ,
                List.getElem?_cons_succ]
              exact e2
            · have hidx : 3 * (j + 1) + 1 = 3 * j + 1 + 1 + 1 + 1 := by ring
              rw [hidx, List.getElem?_cons_succ, List.getElem?_cons_succ,
                List.getElem?_cons_succ]
              exact e3
            · have hidx : 3 * (j + 1) + 2 = 3 * j + 2 + 1 + 1 + 1 := by ring
              rw [hidx, List.getElem?_cons_succ, List.getElem?_cons_succ,
                List.getElem?_cons_succ]
              exact e4

/-- Within bounds, the loop throws the parse error exactly when some
addressed line fails stream parsing. -/
theorem processFrom_parseError_iff (input : List String) :
    ∀ (k i : Nat), i + k ≤ input.length →
      (processFrom input i k = .parseError ↔
        ∃ j, j < k ∧ parseLine (input.getD (i + j) "") = none) := by
  intro k
  induction k with
  | zero =>
      intro i _
      constructor
      · intro h; exact PLResult.noConfusion h
      · rintro ⟨j, hj, -⟩; exact absurd hj (Nat.not_lt_zero j)
  | succ k ih =>
      intro i hlen
      have hi : i < input.length := by omega
      have hg : input[i]? = some (input.getD i "") := getElem?_eq_some_getD input i "" hi
      constructor
      · intro h
        rw [processFrom_succ] at h
        simp only [hg] at h
        cases hp : parseLine (input.getD i "") with
        | none => exact ⟨0, Nat.succ_pos k, hp⟩
        | some r =>
            obtain ⟨a, x, y, z⟩ := r
            simp only [hp] at h
            cases hrec : processFrom input (i + 1) k with
            | ok atoms2 xyz2 => rw [hrec] at h; exact PLResult.noConfusion h
            | parseError =>
                obtain ⟨j, hj, hpe⟩ := (ih (i + 1) (by omega)).mp hrec
                refine ⟨j + 1, by omega, ?_⟩
                have harith : i + (j + 1) = i + 1 + j := by omega
                rwa [harith]
            | lengthError => rw [hrec] at h; exact PLResult.noConfusion h
            | ub => rw [hrec] at h; exact PLResult.noConfusion h
      · rintro ⟨j, hj, hpe⟩
        rw [processFrom_succ]
        simp only [hg]
        cases hp : parseLine (input.getD i "") with
        | none => rfl
        | some r =>
            obtain ⟨a, x, y, z⟩ := r
            cases j with
            | zero =>
                have hpe2 : parseLine (input.getD i "") = none := by simpa using hpe
                rw [hp] at hpe2
                exact Option.noConfusion hpe2
            | succ j =>
                have hrec : processFrom input (i + 1) k = .parseError := by
                  refine (ih (i + 1) (by omega)).mpr ⟨j, by omega, ?_⟩
                  have harith : i + 1 + j = i + (j + 1) := by omega
                  rwa [harith]
                simp only [hp, hrec]

/-- The loop only looks at the addressed entries of the input: two
inputs agreeing there run identically. -/
theorem processFrom_congr (input input2 : List String) :
    ∀ (k i : Nat), (∀ j, i ≤ j → j < i + k → input[j]? = input2[j]?) →
      processFrom input i k = processFrom input2 i k := by
  intro k
  induction k with
  | zero => intro i _; rfl
  | succ k ih =>
      intro i hag
      have h0 : input[i]? = input2[i]? := hag i (Nat.le_refl i) (by omega)
      rw [processFrom_succ, processFrom_succ, ← h0]
      cases hg : input[i]? with
      | none => simp only [hg]
      | some line =>
          simp only [hg]
          rw [ih (i + 1) (fun j h1 h2 => hag j (by omega) (by omega))]

/-- Past the end of the input with all available lines parseable, the
loop runs into the out-of-bounds access. -/
theorem processFrom_past_end_ub (input : List String)
    (hall : ∀ l ∈ input, parseLine l ≠ none) :
    ∀ (k i : Nat), i ≤ input.length → input.length < i + k →
      processFrom input i k = .ub := by
  intro k
  induction k with
  | zero => intro i h1 h2; exact absurd h2 (by omega)
  | succ k ih =>
      intro i h1 h2
      rcases Nat.lt_or_ge i input.length with hi | hi
      · have hg : input[i]? = some (input.getD i "") := getElem?_eq_some_getD input i "" hi
        have hmem : input.getD i "" ∈ input := List.getElem?_mem hg
        cases hp : parseLine (input.getD i "") with
        | none => exact absurd hp (hall _ hmem)
        | some r =>
            obtain ⟨a, x, y, z⟩ := r
            have hrec := ih (i + 1) (by omega) (by omega)
            rw [processFrom_succ]
            simp only [hg, hp, hrec]
      · have hg : input[i]? = none := List.getElem?_eq_none hi
        rw [processFrom_succ]
        simp only [hg]

/-- Past the end of the input the loop never returns a success: it
either reaches the out-of-bounds access or throws on an earlier
malformed line. -/
theorem processFrom_past_end_not_ok (input : List String) :
    ∀ (k i : Nat), i ≤ input.length → input.length < i + k →
      processFrom input i k = .ub ∨ processFrom input i k = .parseError := by
  intro k
  induction k with
  | zero => intro i h1 h2; exact absurd h2 (by omega)
  | succ k ih =>
      intro i h1 h2
      rcases Nat.lt_or_ge i input.length with hi | hi
      · have hg : input[i]? = some (input.getD i "") := getElem?_eq_some_getD input i "" hi
        cases hp : parseLine (input.getD i "") with
        | none =>
            right
            rw [processFrom_succ]
            simp only [hg, hp]
        | some r =>
            obtain ⟨a, x, y, z⟩ := r
            rcases ih (i + 1) (by omega) (by omega) with hrec | hrec
            · left
              rw [processFrom_succ]
              simp only [hg, hp, hrec]
            · right
              rw [processFrom_succ]
              simp only [hg, hp, hrec]
      · have hg : input[i]? = none := List.getElem?_eq_none hi
        left
        rw [processFrom_succ]
        simp only [hg]

/-- For a non-negative count the function is the loop. -/
theorem process_eq_processFrom (input : List String) (n : Nat) :
    process_lines_with_atoms input (n : Int) = processFrom input 0 n := by
  unfold process_lines_with_atoms
  rw [if_neg (by omega)]
  rw [Int.toNat_ofNat]

/-- Master success lemma: under the token-based well-formedness of the
specification for each of the first `n` lines, the call succeeds and
record `i` of the output is the token-based reading of line `i`. -/
theorem process_ok_spec (input : List String) (n : Nat)
    (hn : n ≤ input.length)
    (hwf : ∀ i, i < n → (specRecord (input.getD i "")).isSome) :
    ∃ atoms xyz, process_lines_with_atoms input (n : Int) = .ok atoms xyz ∧
      atoms.length = n ∧ xyz.length = 3 * n ∧
      ∀ i, i < n → ∃ t0 x y z, specRecord (input.getD i "") = some (t0, x, y, z) ∧
        atoms[i]? = some t0 ∧
        xyz[3 * i]? = some x ∧
        xyz[3 * i + 1]? = some y ∧
        xyz[3 * i + 2]? = some z := by
  have hplx : ∀ i, i < n → parseLine (input.getD i "") = specRecord (input.getD i "") := by
    intro i hi
    obtain ⟨rec, hrec⟩ := Option.isSome_iff_exists.mp (hwf i hi)
    rw [hrec]
    exact parseLine_of_specRecord _ rec hrec
  obtain ⟨atoms, xyz, hok, hpt⟩ := processFrom_ok_pointwise input n 0 (by omega) (by
    intro j hj
    simp only [Nat.zero_add]
    rw [hplx j hj]
    intro hcontra
    exact absurd (hwf j hj) (by rw [hcontra]; simp))
  obtain ⟨hl1, hl2⟩ := processFrom_ok_length input n 0 atoms xyz hok
  refine ⟨atoms, xyz, by rw [process_eq_processFrom]; exact hok, hl1, hl2, ?_⟩
  intro i hi
  obtain ⟨r, hr, e1, e2, e3, e4⟩ := hpt i hi
  have hr2 : specRecord (input.getD i "") = some r := by
    rw [← hplx i hi]
    simpa using hr
  obtain ⟨t0, x, y, z⟩ := r
  exact ⟨t0, x, y, z, hr2, e1, e2, e3, e4⟩

/-! ### Claims -/

/-- Claim C2: whenever `process_lines_with_atoms` succeeds with record
count `n`, the returned label list has exactly `n` elements and the
returned coordinate list exactly `3*n` elements. -/
theorem claim_C2 (input : List String) (n : Int) (atoms : List String) (xyz : List ℚ)
    (h : process_lines_with_atoms input n = .ok atoms xyz) :
    atoms.length = n.toNat ∧ xyz.length = 3 * n.toNat := by
  unfold process_lines_with_atoms at h
  by_cases hn : n < 0
  · rw [if_pos hn] at h
    exact PLResult.noConfusion h
  · rw [if_neg hn] at h
    exact processFrom_ok_length input n.toNat 0 atoms xyz h

/-- Witness for claim C2 at a concrete successful input. -/
theorem claim_C2_witness :
    process_lines_with_atoms ["O 0.5 0.25 2.0"] 1 = .ok ["O"] [mkRat 1 2, mkRat 1 4, 2] ∧
    ((["O"] : List String).length = (1 : Int).toNat ∧
      ([mkRat 1 2, mkRat 1 4, 2] : List ℚ).length = 3 * (1 : Int).toNat) :=
  ⟨by decide,
    claim_C2 ["O 0.5 0.25 2.0"] 1 ["O"] [mkRat 1 2, mkRat 1 4, 2] (by decide)⟩

/-- Claim C6: with `n = 0` the call succeeds, returns two empty
sequences, and never reads any line: the result is the same for every
input sequence. -/
theorem claim_C6 (input : List String) :
    process_lines_with_atoms input 0 = .ok [] [] := rfl

/-- Claim C7: only the first `n` entries of the input are read; two
inputs of length at least `n` that agree on their first `n` entries
produce identical results. -/
theorem claim_C7 (input input2 : List String) (n : Nat)
    (hlen1 : n ≤ input.length) (hlen2 : n ≤ input2.length)
    (hag : ∀ i, i < n → input.getD i "" = input2.getD i "") :
    process_lines_with_atoms input (n : Int) =
      process_lines_with_atoms input2 (n : Int) := by
  rw [process_eq_processFrom, process_eq_processFrom]
  apply processFrom_congr
  intro j h1 h2
  have hj : j < n := by omega
  rw [getElem?_eq_some_getD input j "" (by omega),
    getElem?_eq_some_getD input2 j "" (by omega), hag j hj]

/-- Witness for claim C7: entries beyond index `n - 1` have no effect. -/
theorem claim_C7_witness :
    (1 ≤ (["H 1 2 3", "junk"] : List String).length ∧
     1 ≤ (["H 1 2 3", "other stuff"] : List String).length ∧
     ∀ i, i < 1 →
       (["H 1 2 3", "junk"] : List String).getD i "" =
         (["H 1 2 3", "other stuff"] : List String).getD i "") ∧
    process_lines_with_atoms ["H 1 2 3", "junk"] ((1 : Nat) : Int) =
      process_lines_with_atoms ["H 1 2 3", "other stuff"] ((1 : Nat) : Int) :=
  ⟨⟨by decide, by decide, by decide⟩,
    claim_C7 ["H 1 2 3", "junk"] ["H 1 2 3", "other stuff"] 1 (by decide) (by decide)
      (by decide)⟩

/-- Claim C8: the function is deterministic and stateless; in this pure
embedding (the C++ reads only its parameters and locals, no globals or
statics) two calls with equal arguments return equal results. -/
theorem claim_C8 (input input2 : List String) (n n2 : Int)
    (h1 : input = input2) (h2 : n = n2) :
    process_lines_with_atoms input n = process_lines_with_atoms input2 n2 := by
  rw [h1, h2]

/-- Witness for claim C8 at a concrete input. -/
theorem claim_C8_witness :
    ((["O 0.5 0.25 2.0"] : List String) = ["O 0.5 0.25 2.0"] ∧ (1 : Int) = 1) ∧
    process_lines_with_atoms ["O 0.5 0.25 2.0"] 1 =
      process_lines_with_atoms ["O 0.5 0.25 2.0"] 1 :=
  ⟨⟨rfl, rfl⟩, claim_C8 ["O 0.5 0.25 2.0"] ["O 0.5 0.25 2.0"] 1 1 rfl rfl⟩

/-- Claim C9: a negative record count is not checked; the vector
constructors convert it to a huge unsigned size and throw
`std::length_error` before any line is parsed (the result does not
depend on the input lines at all). -/
theorem claim_C9 (input : List String) (n : Int) (hn : n < 0) :
    process_lines_with_atoms input n = .lengthError := by
  unfold process_lines_with_atoms
  rw [if_pos hn]

/-- Witness for claim C9 at `n = -1`. -/
theorem claim_C9_witness :
    (-1 : Int) < 0 ∧
    process_lines_with_atoms ["O 0.5 0.25 2.0"] (-1) = .lengthError :=
  ⟨by decide, claim_C9 ["O 0.5 0.25 2.0"] (-1) (by decide)⟩

/-- Claim C3 counterexample: the claimed failure criterion is
token-based (fewer than four whitespace-separated tokens, or an
uninterpretable numeric token), but stream extraction is positional:
the line "C 1.0.5 2.0" has only three whitespace-separated tokens, yet
the call succeeds, because the single token "1.0.5" feeds two numeric
extractions (1.0 and .5). -/
theorem claim_C3_counterexample :
    (lineTokens "C 1.0.5 2.0").length = 3 ∧
    process_lines_with_atoms ["C 1.0.5 2.0"] 1 = .ok ["C"] [1, mkRat 1 2, 2] := by
  constructor
  · decide
  · decide

/-- Claim C3 (amended): within bounds, the call fails with the parse
error exactly when sequential stream extraction (a label then three
floats) fails on some line among the first `n`; the failure criterion
is not the token count or whole-token numeric validity.  No output
accompanies a failure (the result is the bare error). -/
theorem claim_C3 (input : List String) (n : Nat) (hn : n ≤ input.length) :
    process_lines_with_atoms input (n : Int) = .parseError ↔
      ∃ i, i < n ∧ parseLine (input.getD i "") = none := by
  rw [process_eq_processFrom]
  have h := processFrom_parseError_iff input n 0 (by omega)
  simpa using h

/-- Witness for claim C3 at the concrete failure scenario of the
specification (a line with only three tokens, missing one coordinate,
which here also fails stream extraction). -/
theorem claim_C3_witness :
    1 ≤ (["O 0.000 0.000"] : List String).length ∧
    (process_lines_with_atoms ["O 0.000 0.000"] ((1 : Nat) : Int) = .parseError ↔
      ∃ i, i < 1 ∧ parseLine ((["O 0.000 0.000"] : List String).getD i "") = none) :=
  ⟨by decide, claim_C3 ["O 0.000 0.000"] 1 (by decide)⟩

/-- Claim C4 counterexample: with an empty input and `n = 1` the code
does not fail cleanly; it reaches the undefined out-of-bounds vector
access `input[0]` (the `.ub` outcome), since no bounds check exists in
the source. -/
theorem claim_C4_counterexample :
    process_lines_with_atoms [] 1 = .ub := by decide

/-- Claim C4 (amended): when the input holds fewer than `n` lines the
call never returns a clean success, but it does not fail cleanly
either: unless an earlier line already fails to parse, execution
reaches the undefined out-of-bounds access.  The clean
`InsufficientInputError` of the specification is a recommended addition
that the code does not implement. -/
theorem claim_C4 (input : List String) (n : Nat) (hlen : input.length < n) :
    (∀ atoms xyz, process_lines_with_atoms input (n : Int) ≠ .ok atoms xyz) ∧
    ((∀ l ∈ input, parseLine l ≠ none) →
      process_lines_with_atoms input (n : Int) = .ub) := by
  constructor
  · intro atoms xyz hok
    rw [process_eq_processFrom] at hok
    rcases processFrom_past_end_not_ok input n 0 (by omega) (by omega) with h | h <;>
      rw [h] at hok <;> exact PLResult.noConfusion hok
  · intro hall
    rw [process_eq_processFrom]
    exact processFrom_past_end_ub input hall n 0 (by omega) (by omega)

/-- Witness for claim C4 with one parseable line and `n = 2`. -/
theorem claim_C4_witness :
    (["H 1 2 3"] : List String).length < 2 ∧
    ((∀ atoms xyz, process_lines_with_atoms ["H 1 2 3"] ((2 : Nat) : Int) ≠ .ok atoms xyz) ∧
     ((∀ l ∈ (["H 1 2 3"] : List String), parseLine l ≠ none) →
       process_lines_with_atoms ["H 1 2 3"] ((2 : Nat) : Int) = .ub)) :=
  ⟨by decide, claim_C4 ["H 1 2 3"] 2 (by decide)⟩

/-- Claim C10 counterexample: the tokens "inf" and "nan" are not
examples of accepted non-literal coordinate tokens; the stage 2
character set of stream extraction has no letters besides the exponent
marker, so such lines fail. -/
theorem claim_C10_counterexample :
    process_lines_with_atoms ["C inf 2.0 3.0"] 1 = .parseError ∧
    process_lines_with_atoms ["C 1.0 2.0 nan"] 1 = .parseError := by
  constructor
  · decide
  · decide

/-- Claim C10 (amended): coordinate reading follows the stream float
extraction of the host language rather than strict whole-token decimal
parsing: a fourth token that is a valid number followed immediately by
trailing non-numeric characters is not a decimal literal, yet the call
succeeds with the extracted numeric value; the tokens "inf" and "nan",
however, are rejected by stream extraction and the call fails on them. -/
theorem claim_C10 :
    floatLitVal "3.0abc" = none ∧
    process_lines_with_atoms ["C 1.0 2.0 3.0abc"] 1 = .ok ["C"] [1, 2, 3] ∧
    process_lines_with_atoms ["C nan 2.0 3.0"] 1 = .parseError := by
  refine ⟨by decide, by decide, by decide⟩

/-- Claim C5: a line with more than four whitespace-separated tokens
whose first four tokens form a valid record (arbitrary label plus three
decimal literals) parses successfully, and the result is determined by
the first four tokens alone: everything beyond them is silently
ignored. -/
theorem claim_C5 (line : String) (t0 t1 t2 t3 : String) (ts : List String) (x y z : ℚ)
    (htok : lineTokens line = t0 :: t1 :: t2 :: t3 :: ts)
    (hmore : ts ≠ [])
    (h1 : floatLitVal t1 = some x)
    (h2 : floatLitVal t2 = some y)
    (h3 : floatLitVal t3 = some z) :
    parseLine line = some (t0, x, y, z) :=
  parseLine_of_tokens line t0 t1 t2 t3 ts x y z htok h1 h2 h3

/-- Witness for claim C5 at the trailing-token example of the
specification. -/
theorem claim_C5_witness :
    (lineTokens "C 1.0 2.0 3.0 extra" = ["C", "1.0", "2.0", "3.0", "extra"] ∧
     (["extra"] : List String) ≠ [] ∧
     floatLitVal "1.0" = some 1 ∧ floatLitVal "2.0" = some 2 ∧
     floatLitVal "3.0" = some 3) ∧
    parseLine "C 1.0 2.0 3.0 extra" = some ("C", 1, 2, 3) :=
  ⟨⟨by decide, by decide, by decide, by decide, by decide⟩,
    claim_C5 "C 1.0 2.0 3.0 extra" "C" "1.0" "2.0" "3.0" ["extra"] 1 2 3 (by decide)
      (by decide) (by decide) (by decide) (by decide)⟩

/-- Claim C1: for well-formed leading lines (at least four
whitespace-separated tokens, tokens two to four whole-token decimal
literals, which is what `specRecord` accepts), the call succeeds; label
`i` is the first token of line `i` verbatim, and coordinates `3*i`,
`3*i + 1`, `3*i + 2` are the values of tokens two to four of line `i`,
preserving input order.  Consequently, reindexing the first `n` lines
(in particular permuting them) reindexes the output records
identically. -/
theorem claim_C1 (input : List String) (n : Nat)
    (hn : n ≤ input.length)
    (hwf : ∀ i, i < n → (specRecord (input.getD i "")).isSome) :
    ∃ atoms xyz,
      process_lines_with_atoms input (n : Int) = .ok atoms xyz ∧
      (∀ i, i < n → ∃ t0 x y z,
        specRecord (input.getD i "") = some (t0, x, y, z) ∧
        atoms[i]? = some t0 ∧ xyz[3 * i]? = some x ∧
        xyz[3 * i + 1]? = some y ∧ xyz[3 * i + 2]? = some z) ∧
      (∀ (input2 : List String) (σ : Nat → Nat),
        n ≤ input2.length →
        (∀ i, i < n → σ i < n) →
        (∀ i, i < n → input2.getD i "" = input.getD (σ i) "") →
        ∃ atoms2 xyz2,
          process_lines_with_atoms input2 (n : Int) = .ok atoms2 xyz2 ∧
          ∀ i, i < n →
            atoms2[i]? = atoms[σ i]? ∧
            xyz2[3 * i]? = xyz[3 * σ i]? ∧
            xyz2[3 * i + 1]? = xyz[3 * σ i + 1]? ∧
            xyz2[3 * i + 2]? = xyz[3 * σ i + 2]?) := by
  obtain ⟨atoms, xyz, hok, hla, hlx, hpt⟩ := process_ok_spec input n hn hwf
  refine ⟨atoms, xyz, hok, hpt, ?_⟩
  intro input2 σ hlen2 hσ hperm
  have hwf2 : ∀ i, i < n → (specRecord (input2.getD i "")).isSome := by
    intro i hi
    rw [hperm i hi]
    exact hwf (σ i) (hσ i hi)
  obtain ⟨atoms2, xyz2, hok2, hla2, hlx2, hpt2⟩ := process_ok_spec input2 n hlen2 hwf2
  refine ⟨atoms2, xyz2, hok2, ?_⟩
  intro i hi
  obtain ⟨t0, x, y, z, hs2, f1, f2, f3, f4⟩ := hpt2 i hi
  obtain ⟨t0b, xb, yb, zb, hsb, g1, g2, g3, g4⟩ := hpt (σ i) (hσ i hi)
  have hEqRec : specRecord (input2.getD i "") = specRecord (input.getD (σ i) "") := by
    rw [hperm i hi]
  rw [hs2, hsb] at hEqRec
  have hEq := Option.some.inj hEqRec
  rw [Prod.mk.injEq, Prod.mk.injEq, Prod.mk.injEq] at hEq
  obtain ⟨e0, e1, e2, e3⟩ := hEq
  refine ⟨?_, ?_, ?_, ?_⟩
  · rw [f1, g1, e0]
  · rw [f2, g2, e1]
  · rw [f3, g3, e2]
  · rw [f4, g4, e3]

/-- Witness for claim C1 at a one-line well-formed input. -/
theorem claim_C1_witness :
    (1 ≤ (["O 0.5 0.25 1e2"] : List String).length ∧
     ∀ i, i < 1 → (specRecord ((["O 0.5 0.25 1e2"] : List String).getD i "")).isSome) ∧
    (∃ atoms xyz,
      process_lines_with_atoms ["O 0.5 0.25 1e2"] ((1 : Nat) : Int) = .ok atoms xyz ∧
      (∀ i, i < 1 → ∃ t0 x y z,
        specRecord ((["O 0.5 0.25 1e2"] : List String).getD i "") = some (t0, x, y, z) ∧
        atoms[i]? = some t0 ∧ xyz[3 * i]? = some x ∧
        xyz[3 * i + 1]? = some y ∧ xyz[3 * i + 2]? = some z) ∧
      (∀ (input2 : List String) (σ : Nat → Nat),
        1 ≤ input2.length →
        (∀ i, i < 1 → σ i < 1) →
        (∀ i, i < 1 → input2.getD i "" = (["O 0.5 0.25 1e2"] : List String).getD (σ i) "") →
        ∃ atoms2 xyz2,
          process_lines_with_atoms input2 ((1 : Nat) : Int) = .ok atoms2 xyz2 ∧
          ∀ i, i < 1 →
            atoms2[i]? = atoms[σ i]? ∧
            xyz2[3 * i]? = xyz[3 * σ i]? ∧
            xyz2[3 * i + 1]? = xyz[3 * σ i + 1]? ∧
            xyz2[3 * i + 2]? = xyz[3 * σ i + 2]?)) :=
  ⟨⟨by decide, by decide⟩, claim_C1 ["O 0.5 0.25 1e2"] 1 (by decide) (by decide)⟩
